import Mathlib

/-!
# go-pipeline: stage combinators

A shallow embedding of the stage combinators of the pipeline library:

* `lifecycle_stage.go`      : namespace `Lifecycle`
* `sequential_group.go`     : namespace `Sequential`
* `pkg/stage/conditional/conditional_stage.go` : namespace `Conditional`

Go code is side-effecting, so every Go function is embedded as a function
that takes the world before the call and returns its Go result together
with the world after the call.  A Go `error` is an `Option ε`: `none` is
`nil`, `some e` is a non-nil error.  A Go value that may be `nil` (a func
value, an interface value) is an `Option`.  A Go interface value is the
record of its methods.

The three files do not use one signature for `Stage.Run`: the lifecycle
stage calls `Run(executor, ctx)`, the sequential group and the conditional
stage call `Run(executor)`.  Each file is embedded with the signature it
uses itself, in its own namespace.

Two more namespaces follow the three files: `Tree`, finite trees of these
combinators and their run with a bound on nested calls, and `Parallel`, the
parallel group, which the sources do not hold and which is modelled from
the specification.
-/

/-! ## Observation of calls

User code (leaf stages, steps, hook bodies) works on a memory `σ`.  To
state which user code was invoked, in which order and how often, the world
also carries a trace of tags that user code cannot write: a probe appends
its tag when it is invoked and then runs its body on the memory. -/

/-- The world of an observed run: the calls recorded so far and the memory
user code works on. -/
structure World (τ σ : Type) where
  trace : List τ
  mem : σ
  deriving DecidableEq

namespace World

variable {τ σ ε : Type}

/-- Record one call with tag `t`, then run the body `f` on the memory. -/
def call (t : τ) (f : σ → Option ε × σ) (w : World τ σ) : Option ε × World τ σ :=
  ((f w.mem).1, ⟨w.trace ++ [t], (f w.mem).2⟩)

end World

/-! ## lifecycle_stage.go -/

namespace Lifecycle

/-- The `Stage` interface as this file uses it:
`Run(executor Executor, ctx Context) error`. -/
structure Stage (X χ ε W : Type) where
  Run : X → χ → W → Option ε × W

/-- The Go type `BeforeStage func(stage Stage, ctx Context) error`. -/
abbrev BeforeStage (X χ ε W : Type) := Stage X χ ε W → χ → W → Option ε × W

/-- The Go type `AfterStage func(stage Stage, ctx Context, err error) error`. -/
abbrev AfterStage (X χ ε W : Type) := Stage X χ ε W → χ → Option ε → W → Option ε × W

/-- The Go struct `lifecycleStage`; a nil hook is `none`. -/
structure lifecycleStage (X χ ε W : Type) where
  Before : Option (BeforeStage X χ ε W)
  After : Option (AfterStage X χ ε W)
  Stage : Stage X χ ε W

variable {X χ ε W : Type}

/-- The Go method `(*lifecycleStage).Run`. -/
def lifecycleStage.Run (l : lifecycleStage X χ ε W) (executor : X) (ctx : χ) (w : W) :
    Option ε × W :=
  -- if l.Before != nil { err := l.Before(l.Stage, ctx); if err != nil { return err } }
  match (match l.Before with
         | some before => before l.Stage ctx w
         | none => (none, w)) with
  | (some err, w1) => (some err, w1)
  | (none, w1) =>
    -- err := l.Stage.Run(executor, ctx)
    match l.Stage.Run executor ctx w1 with
    | (err, w2) =>
      -- if l.After != nil { err = l.After(l.Stage, ctx, err) }; return err
      match l.After with
      | some after => after l.Stage ctx err w2
      | none => (err, w2)

/-- The Go function `CreateBeforeStageLifecycle`: the `After` field is left
at its zero value, nil. -/
def CreateBeforeStageLifecycle (stage : Stage X χ ε W) (before : Option (BeforeStage X χ ε W)) :
    Stage X χ ε W :=
  ⟨lifecycleStage.Run { Before := before, After := none, Stage := stage }⟩

/-- The Go function `CreateAfterStageLifecycle`: the `Before` field is left
at its zero value, nil. -/
def CreateAfterStageLifecycle (stage : Stage X χ ε W) (after : Option (AfterStage X χ ε W)) :
    Stage X χ ε W :=
  ⟨lifecycleStage.Run { Before := none, After := after, Stage := stage }⟩

/-- The Go function `CreateStageLifecycle`. -/
def CreateStageLifecycle (stage : Stage X χ ε W) (before : Option (BeforeStage X χ ε W))
    (after : Option (AfterStage X χ ε W)) : Stage X χ ε W :=
  ⟨lifecycleStage.Run { Before := before, After := after, Stage := stage }⟩

variable {τ σ : Type}

/-- An observed stage: records `t`, then runs `body` on the memory. -/
def probeStage (t : τ) (body : X → χ → σ → Option ε × σ) : Stage X χ ε (World τ σ) :=
  ⟨fun executor ctx w => w.call t (body executor ctx)⟩

/-- An observed before-hook: records `t`, then runs `body` on the memory. -/
def probeBefore (t : τ) (body : Stage X χ ε (World τ σ) → χ → σ → Option ε × σ) :
    BeforeStage X χ ε (World τ σ) :=
  fun stage ctx w => w.call t (body stage ctx)

/-- An observed after-hook: records `t`, then runs `body` on the memory. -/
def probeAfter (t : τ) (body : Stage X χ ε (World τ σ) → χ → Option ε → σ → Option ε × σ) :
    AfterStage X χ ε (World τ σ) :=
  fun stage ctx err w => w.call t (body stage ctx err)

/-- A recorded call together with the arguments it received.  A stage
argument is a record of functions; what is recorded of it is what an
observation `watch` of type `Stage → ι` returns on it. -/
inductive Call (ι X χ ε : Type) where
  | before (stage : ι) (ctx : χ)
  | run (executor : X) (ctx : χ)
  | after (stage : ι) (ctx : χ) (err : Option ε)
  deriving DecidableEq

variable {ι : Type}

/-- An observed stage that records the arguments of its `Run`. -/
def argStage (body : X → χ → σ → Option ε × σ) : Stage X χ ε (World (Call ι X χ ε) σ) :=
  ⟨fun executor ctx w => w.call (Call.run executor ctx) (body executor ctx)⟩

/-- An observed before-hook that records its arguments. -/
def argBefore (watch : Stage X χ ε (World (Call ι X χ ε) σ) → ι)
    (body : Stage X χ ε (World (Call ι X χ ε) σ) → χ → σ → Option ε × σ) :
    BeforeStage X χ ε (World (Call ι X χ ε) σ) :=
  fun stage ctx w => w.call (Call.before (watch stage) ctx) (body stage ctx)

/-- An observed after-hook that records its arguments. -/
def argAfter (watch : Stage X χ ε (World (Call ι X χ ε) σ) → ι)
    (body : Stage X χ ε (World (Call ι X χ ε) σ) → χ → Option ε → σ → Option ε × σ) :
    AfterStage X χ ε (World (Call ι X χ ε) σ) :=
  fun stage ctx err w => w.call (Call.after (watch stage) ctx err) (body stage ctx err)

end Lifecycle

/-! ## sequential_group.go -/

namespace Sequential

/-- The `Stage` interface as this file uses it: `Run(executor Executor) error`. -/
structure Stage (X ε W : Type) where
  Run : X → W → Option ε × W

/-- The Go type `sequentialGroup []Stage`. -/
abbrev sequentialGroup (X ε W : Type) := List (Stage X ε W)

variable {X ε W : Type}

/-- Modelled from the spec: the loop of the helper `runSync`, whose body is
not part of the sources, over the indices still to visit: call `run` on
each index in order and stop at the first non-nil error. -/
def runSyncLoop {ι : Type} (run : ι → W → Option ε × W) : List ι → W → Option ε × W
  | [], w => (none, w)
  | index :: rest, w =>
    match run index w with
    | (some err, w1) => (some err, w1)
    | (none, w1) => runSyncLoop run rest w1

/-- Modelled from the spec: the helper `runSync(size, run)` is called by
`sequentialGroup.Run` but its body is not part of the sources.  It calls
`run` for the indices `0, 1, ..., size - 1` in order and stops at the first
non-nil error, which it returns; it returns nil when no call fails.  The
indices it hands to `run` are below `size`, so they are of type `Fin size`. -/
def runSync (size : Nat) (run : Fin size → W → Option ε × W) (w : W) : Option ε × W :=
  runSyncLoop run (List.finRange size) w

/-- The Go method `sequentialGroup.Run`. -/
def sequentialGroup.Run (s : sequentialGroup X ε W) (executor : X) (w : W) : Option ε × W :=
  runSync s.length (fun index => (s.get index).Run executor) w

/-- The Go function `CreateSequentialGroup`. -/
def CreateSequentialGroup (stages : List (Stage X ε W)) : Stage X ε W :=
  ⟨sequentialGroup.Run stages⟩

variable {τ σ : Type}

/-- An observed child stage: records `t`, then runs `body` on the memory. -/
def probeStage (child : τ × (X → σ → Option ε × σ)) : Stage X ε (World τ σ) :=
  ⟨fun executor w => w.call child.1 (child.2 executor)⟩

/-- An observed child stage that records, with its tag, the argument of its
`Run`: the executor it is given. -/
def argStage (child : τ × (X → σ → Option ε × σ)) : Stage X ε (World (τ × X) σ) :=
  ⟨fun executor w => w.call (child.1, executor) (child.2 executor)⟩

/-- The memory after the bodies ran one after another from `m`. -/
def memAfter (executor : X) : List (τ × (X → σ → Option ε × σ)) → σ → σ
  | [], m => m
  | child :: rest, m => memAfter executor rest (child.2 executor m).2

/-- Every body returns nil when the bodies run one after another from `m`. -/
def allSucceed (executor : X) : List (τ × (X → σ → Option ε × σ)) → σ → Prop
  | [], _ => True
  | child :: rest, m =>
    (child.2 executor m).1 = none ∧ allSucceed executor rest (child.2 executor m).2

end Sequential

/-! ## pkg/stage/conditional/conditional_stage.go -/

namespace Conditional

/-- The `api.Step` interface: `Name() string` and `Run() error`.  A step is
user code, it works on the memory. -/
structure Step (ε σ : Type) where
  Name : String
  Run : σ → Option ε × σ

/-- The `api.Executor` interface: `Run(step Step) error`. -/
structure Executor (ε σ W : Type) where
  Run : Step ε σ → W → Option ε × W

/-- The `api.Stage` interface as this file uses it:
`Run(executor Executor) error`. -/
structure Stage (ε σ W : Type) where
  Run : Executor ε σ W → W → Option ε × W

/-- The Go type `Statement func() bool`. -/
abbrev Statement (W : Type) := W → Bool × W

/-- The Go struct `conditionalStage`; a nil statement or step is `none`. -/
structure conditionalStage (ε σ W : Type) where
  Statement : Option (Statement W)
  True : Option (Step ε σ)
  False : Option (Step ε σ)

variable {ε σ W : Type}

/-- The Go method `(*conditionalStage).Run`. -/
def conditionalStage.Run (c : conditionalStage ε σ W) (executor : Executor ε σ W) (w : W) :
    Option ε × W :=
  -- c.Statement != nil && c.Statement(): the call is made only when non-nil
  match (match c.Statement with
         | some statement => statement w
         | none => (false, w)) with
  | (true, w1) =>
    match c.True with
    | some step => executor.Run step w1
    | none => (none, w1)
  | (false, w1) =>
    match c.False with
    | some step => executor.Run step w1
    | none => (none, w1)

/-- The Go function `CreateConditionalStage`. -/
def CreateConditionalStage (statement : Option (Statement W)) (trueStep falseStep : Option (Step ε σ)) :
    Stage ε σ W :=
  ⟨conditionalStage.Run { Statement := statement, True := trueStep, False := falseStep }⟩

/-- An observing executor: records the name of the step it is asked to run,
then runs the step on the memory and returns its error unmodified. -/
def recordingExecutor : Executor ε σ (World String σ) :=
  ⟨fun step w => w.call step.Name step.Run⟩

/-- An observed statement: records `t` each time it is evaluated, then
evaluates `p` on the memory, which it may change. -/
def probeStatement (t : String) (p : σ → Bool × σ) : Statement (World String σ) :=
  fun w => ((p w.mem).1, ⟨w.trace ++ [t], (p w.mem).2⟩)

end Conditional

/-! ## Stage trees

A stage tree is a finite tree of combinators over leaf stages.  The files
do not share one signature of `Run`, so a tree is run with the executor and
the context its root is given, as the lifecycle stage is: a sequential
group takes the pair of them as the one argument of its `Run` and hands it
to its children, a conditional stage takes the executor, which is an
`api.Executor`, and has steps as branches.

Leaves, statements and hooks are total functions: they terminate.  To make
termination of `Run` a statement, `runFuel` runs a tree with a bound on the
depth of nested `Run` calls and returns `none` when the bound is reached. -/

namespace Tree

open Conditional in
/-- A finite stage tree: a leaf stage, a sequential group of trees, a
conditional stage, or a lifecycle stage around a tree. -/
inductive StageTree (χ ε σ W : Type) where
  | leaf (stage : Lifecycle.Stage (Executor ε σ W) χ ε W)
  | sequential (children : List (StageTree χ ε σ W))
  | conditional (statement : Option (Statement W)) (trueStep falseStep : Option (Step ε σ))
  | lifecycle (before : Option (Lifecycle.BeforeStage (Executor ε σ W) χ ε W))
      (after : Option (Lifecycle.AfterStage (Executor ε σ W) χ ε W))
      (stage : StageTree χ ε σ W)

variable {χ ε σ W : Type}

/-- A stage with `Run(executor, ctx)` as a child of a sequential group whose
`Run` takes the pair of executor and context as its argument. -/
def bundle {X : Type} (s : Lifecycle.Stage X χ ε W) : Sequential.Stage (X × χ) ε W :=
  ⟨fun args w => s.Run args.1 args.2 w⟩

mutual
/-- The stage a tree stands for, built with the constructors of the
library by recursion on the tree. -/
def StageTree.build : StageTree χ ε σ W → Lifecycle.Stage (Conditional.Executor ε σ W) χ ε W
  | .leaf stage => stage
  | .sequential children =>
    ⟨fun executor ctx w =>
      (Sequential.CreateSequentialGroup (StageTree.buildAll children)).Run (executor, ctx) w⟩
  | .conditional statement trueStep falseStep =>
    ⟨fun executor _ w =>
      (Conditional.CreateConditionalStage statement trueStep falseStep).Run executor w⟩
  | .lifecycle before after stage => Lifecycle.CreateStageLifecycle stage.build before after
/-- The stages the children of a group stand for. -/
def StageTree.buildAll :
    List (StageTree χ ε σ W) → List (Sequential.Stage (Conditional.Executor ε σ W × χ) ε W)
  | [] => []
  | t :: rest => bundle t.build :: StageTree.buildAll rest
end

mutual
/-- The depth of a tree: the longest chain of nested `Run` calls. -/
def StageTree.depth : StageTree χ ε σ W → Nat
  | .leaf _ => 1
  | .sequential children => StageTree.depthAll children + 1
  | .conditional _ _ _ => 1
  | .lifecycle _ _ stage => stage.depth + 1
/-- The largest depth among the children of a group. -/
def StageTree.depthAll : List (StageTree χ ε σ W) → Nat
  | [] => 0
  | t :: rest => max t.depth (StageTree.depthAll rest)
end

/-- The loop of `runSync`, as `Sequential.runSyncLoop`, when a call of `run`
may fail to return (`none`): the loop then does not return either. -/
def runSyncLoopFuel {ι : Type} (run : ι → W → Option (Option ε × W)) :
    List ι → W → Option (Option ε × W)
  | [], w => some (none, w)
  | index :: rest, w =>
    match run index w with
    | none => none
    | some (some err, w1) => some (some err, w1)
    | some (none, w1) => runSyncLoopFuel run rest w1

/-- The helper `runSync`, as `Sequential.runSync`, when a call of `run` may
fail to return. -/
def runSyncFuel (size : Nat) (run : Fin size → W → Option (Option ε × W)) (w : W) :
    Option (Option ε × W) :=
  runSyncLoopFuel run (List.finRange size) w

/-- Run a tree with at most `fuel` nested `Run` calls; `none` when a call
would exceed the bound.  Each case is the `Run` method of its combinator,
with the `Run` of a child tree made a recursive call. -/
def StageTree.runFuel : Nat → StageTree χ ε σ W → Conditional.Executor ε σ W → χ → W →
    Option (Option ε × W)
  | 0, _, _, _, _ => none
  | _ + 1, .leaf stage, executor, ctx, w => some (stage.Run executor ctx w)
  | fuel + 1, .sequential children, executor, ctx, w =>
    -- sequentialGroup.Run: runSync(len(s), func(index) { return s[index].Run(...) })
    runSyncFuel children.length
      (fun index => StageTree.runFuel fuel (children.get index) executor ctx) w
  | _ + 1, .conditional statement trueStep falseStep, executor, _, w =>
    -- conditionalStage.Run: the branches are steps, run by the executor
    some (Conditional.conditionalStage.Run
      { Statement := statement, True := trueStep, False := falseStep } executor w)
  | fuel + 1, .lifecycle before after stage, executor, ctx, w =>
    -- lifecycleStage.Run
    match (match before with
           | some hook => hook stage.build ctx w
           | none => (none, w)) with
    | (some err, w1) => some (some err, w1)
    | (none, w1) =>
      match StageTree.runFuel fuel stage executor ctx w1 with
      | none => none
      | some (err, w2) =>
        match after with
        | some hook => some (hook stage.build ctx err w2)
        | none => some (err, w2)

end Tree

/-! ## Parallel group

The sources hold no code of the parallel group; it is modelled from the
specification.  Its children are stages of the package of the sequential
group.  Concurrency is modelled at the grain of a child: a child runs as
one atomic action, and the order in which the children run is a parameter,
the schedule.  Interleaving inside the body of a child is not modelled. -/

namespace Parallel

variable {X ε W : Type}

/-- Modelled from the spec: the aggregate failure of a parallel group, the
errors of the failing children, each with the index of the child that
produced it. -/
abbrev AggregateError (ε : Type) := List (Nat × ε)

/-- Modelled from the spec: the fan-out and join of the parallel group,
whose code is not part of the sources.  Every child of the schedule runs to
completion, whatever the others returned, and the error it returns is kept
in the slot of its index. -/
def runAll {n : Nat} (run : Fin n → W → Option ε × W) :
    List (Fin n) → (Fin n → Option ε) → W → (Fin n → Option ε) × W
  | [], slots, w => (slots, w)
  | index :: rest, slots, w =>
    runAll run rest (Function.update slots index (run index w).1) (run index w).2

/-- Modelled from the spec: the aggregation of the parallel group, whose
code is not part of the sources.  The errors kept in the slots are
collected by child index, not by arrival; nil when no slot holds an error. -/
def aggregate {n : Nat} (slots : Fin n → Option ε) : Option (AggregateError ε) :=
  match (List.finRange n).filterMap
      (fun index => (slots index).map (fun err => (index.val, err))) with
  | [] => none
  | failure :: more => some (failure :: more)

/-- Modelled from the spec: `Run` of the parallel group created by
`CreateParallelGroup(stages...)`, whose code is not part of the sources:
launch every child, wait for all of them, then return the aggregate of the
failures, nil when no child failed. -/
def parallelGroup.Run (s : List (Sequential.Stage X ε W)) (schedule : List (Fin s.length))
    (executor : X) (w : W) : Option (AggregateError ε) × W :=
  (aggregate (runAll (fun index => (s.get index).Run executor) schedule (fun _ => none) w).1,
    (runAll (fun index => (s.get index).Run executor) schedule (fun _ => none) w).2)

end Parallel

/-! ## Theorems: sequential group -/

namespace Sequential

variable {X ε W τ σ : Type}

theorem runSyncLoop_map {ι κ : Type} (g : ι → κ) (run : κ → W → Option ε × W)
    (indices : List ι) (w : W) :
    runSyncLoop run (indices.map g) w = runSyncLoop (fun index => run (g index)) indices w := by
  induction indices generalizing w with
  | nil => rfl
  | cons index rest ih =>
    simp only [List.map_cons, runSyncLoop]
    cases h : run (g index) w with
    | mk err w1 => cases err <;> simp [ih]

/-- Running a group with a first child: the first child runs; on an error
the group returns it, otherwise the rest of the group runs from the world
the first child left. -/
theorem Run_cons (a : Stage X ε W) (s : List (Stage X ε W)) (executor : X) (w : W) :
    sequentialGroup.Run (a :: s) executor w =
      match a.Run executor w with
      | (some err, w1) => (some err, w1)
      | (none, w1) => sequentialGroup.Run s executor w1 := by
  simp only [sequentialGroup.Run, runSync, List.length_cons, List.finRange_succ, runSyncLoop,
    runSyncLoop_map]
  rfl

theorem Run_nil (executor : X) (w : W) :
    sequentialGroup.Run ([] : List (Stage X ε W)) executor w = (none, w) := by
  simp [sequentialGroup.Run, runSync, runSyncLoop]

/-- Children that all succeed run one after another; the group then goes on
with the children that follow them. -/
theorem Run_probes_append (executor : X) (children : List (τ × (X → σ → Option ε × σ)))
    (rest : List (Stage X ε (World τ σ))) (tr : List τ) (m : σ)
    (h : allSucceed executor children m) :
    sequentialGroup.Run (children.map probeStage ++ rest) executor ⟨tr, m⟩ =
      sequentialGroup.Run rest executor
        ⟨tr ++ children.map Prod.fst, memAfter executor children m⟩ := by
  induction children generalizing tr m with
  | nil => simp [memAfter]
  | cons child more ih =>
    obtain ⟨h1, h2⟩ := h
    simp only [List.map_cons, List.cons_append, Run_cons, probeStage, World.call, h1]
    rw [ih _ _ h2]
    simp [memAfter]

end Sequential

namespace Sequential

variable {X ε W τ σ : Type}

/-- C1. Fail-fast.  The children before index k are observed stages that
all succeed, child k is an observed stage that returns the error `e`, the
children after it are any stages.  The group returns exactly `e`; the calls
recorded are the children up to k, each once and in order, and nothing of
the later children; the memory is the one child k left. -/
theorem sequential_fail_fast (executor : X) (before : List (τ × (X → σ → Option ε × σ)))
    (failing : τ × (X → σ → Option ε × σ)) (later : List (Stage X ε (World τ σ)))
    (tr : List τ) (m : σ) (e : ε)
    (hbefore : allSucceed executor before m)
    (hfail : (failing.2 executor (memAfter executor before m)).1 = some e) :
    (CreateSequentialGroup (before.map probeStage ++ probeStage failing :: later)).Run
        executor ⟨tr, m⟩ =
      (some e, ⟨tr ++ before.map Prod.fst ++ [failing.1],
        (failing.2 executor (memAfter executor before m)).2⟩) := by
  show sequentialGroup.Run _ executor _ = _
  rw [Run_probes_append executor before _ tr m hbefore, Run_cons]
  simp [probeStage, World.call, hfail]

theorem sequential_fail_fast_witness :
    (CreateSequentialGroup (X := Unit) (ε := String)
        [probeStage ("S1", fun _ (m : Nat) => (none, m + 1)),
         probeStage ("S2", fun _ m => (some "boom", m + 10)),
         probeStage ("S3", fun _ m => (some "late", m + 100))]).Run () ⟨[], 0⟩ =
      (some "boom", ⟨["S1", "S2"], 11⟩) :=
  sequential_fail_fast () [("S1", fun _ (m : Nat) => (none, m + 1))]
    ("S2", fun _ m => (some "boom", m + 10))
    [probeStage ("S3", fun _ m => (some "late", m + 100))] [] 0 "boom"
    (by simp [allSucceed]) (by simp [memAfter])

/-- C6. Ordering on success.  When the children are observed stages that
all succeed, each running on the memory the previous one left, the group
returns nil and the calls recorded are the children, each once, in array
order. -/
theorem sequential_order_on_success (executor : X)
    (children : List (τ × (X → σ → Option ε × σ))) (tr : List τ) (m : σ)
    (h : allSucceed executor children m) :
    (CreateSequentialGroup (children.map probeStage)).Run executor ⟨tr, m⟩ =
      (none, ⟨tr ++ children.map Prod.fst, memAfter executor children m⟩) := by
  show sequentialGroup.Run _ executor _ = _
  have h2 := Run_probes_append executor children [] tr m h
  rw [List.append_nil] at h2
  rw [h2, Run_nil]

theorem sequential_order_on_success_witness :
    (CreateSequentialGroup (X := Unit) (ε := String)
        [probeStage ("S1", fun _ (m : Nat) => (none, 2 * m + 1)),
         probeStage ("S2", fun _ m => (none, 2 * m + 1)),
         probeStage ("S3", fun _ m => (none, 10 * m))]).Run () ⟨[], 0⟩ =
      (none, ⟨["S1", "S2", "S3"], 30⟩) :=
  sequential_order_on_success ()
    [("S1", fun _ (m : Nat) => (none, 2 * m + 1)), ("S2", fun _ m => (none, 2 * m + 1)),
     ("S3", fun _ m => (none, 10 * m))] [] 0 (by simp [allSucceed])

end Sequential

/-! ## Theorems: lifecycle stage -/

namespace Lifecycle

variable {X χ ε W τ σ : Type}

/-- C2. Before-hook failure.  The before-hook is an observed hook that
returns the error `e`; the wrapped stage and the after-hook (set or nil)
are any.  `Run` returns exactly `e`, the only call recorded is the
before-hook, and the memory is the one the before-hook left: neither the
wrapped stage nor the after-hook ran. -/
theorem lifecycle_before_failure (l : lifecycleStage X χ ε (World τ σ)) (tB : τ)
    (body : Stage X χ ε (World τ σ) → χ → σ → Option ε × σ)
    (executor : X) (ctx : χ) (tr : List τ) (m : σ) (e : ε)
    (hset : l.Before = some (probeBefore tB body))
    (hfail : (body l.Stage ctx m).1 = some e) :
    l.Run executor ctx ⟨tr, m⟩ = (some e, ⟨tr ++ [tB], (body l.Stage ctx m).2⟩) := by
  simp [lifecycleStage.Run, hset, probeBefore, World.call, hfail]

theorem lifecycle_before_failure_witness :
    (CreateStageLifecycle (X := Unit) (χ := Unit) (ε := String)
        (probeStage "stage" (fun _ _ (m : Nat) => (none, m + 10)))
        (some (probeBefore "before" (fun _ _ m => (some "denied", m + 1))))
        (some (probeAfter "after" (fun _ _ _ m => (none, m + 100))))).Run () () ⟨[], 0⟩ =
      (some "denied", ⟨["before"], 1⟩) :=
  lifecycle_before_failure
    { Before := some (probeBefore "before" (fun _ _ m => (some "denied", m + 1)))
      After := some (probeAfter "after" (fun _ _ _ m => (none, m + 100)))
      Stage := probeStage "stage" (fun _ _ (m : Nat) => (none, m + 10)) }
    "before" (fun _ _ m => (some "denied", m + 1)) () () [] 0 "denied" rfl rfl

/-- C3. The after-hook decides the result.  When the after-hook is set and
the before-hook is nil, or set and returns nil leaving the world `w1`
(`w1 = w` when it is nil), `Run` returns exactly what the after-hook
returns when called with the wrapped stage, the context and the result of
the wrapped stage, whatever that result is.  In particular, when the
wrapped stage fails with `E` and the after-hook returns nil, `Run` returns
nil. -/
theorem lifecycle_after_decides (l : lifecycleStage X χ ε W) (after : AfterStage X χ ε W)
    (executor : X) (ctx : χ) (w w1 : W)
    (hafter : l.After = some after)
    (hbefore : (l.Before = none ∧ w1 = w) ∨
      ∃ before, l.Before = some before ∧ before l.Stage ctx w = (none, w1)) :
    l.Run executor ctx w =
        after l.Stage ctx (l.Stage.Run executor ctx w1).1 (l.Stage.Run executor ctx w1).2 ∧
      ∀ E : ε, (l.Stage.Run executor ctx w1).1 = some E →
        (after l.Stage ctx (some E) (l.Stage.Run executor ctx w1).2).1 = none →
        (l.Run executor ctx w).1 = none := by
  have key : l.Run executor ctx w =
      after l.Stage ctx (l.Stage.Run executor ctx w1).1 (l.Stage.Run executor ctx w1).2 := by
    rcases hbefore with ⟨hnone, rfl⟩ | ⟨before, hsome, hok⟩
    · simp [lifecycleStage.Run, hnone, hafter]
    · simp [lifecycleStage.Run, hsome, hok, hafter]
  refine ⟨key, fun E hE hnil => ?_⟩
  rw [key, hE]
  exact hnil

theorem lifecycle_after_decides_witness :
    (CreateAfterStageLifecycle (X := Unit) (χ := Unit) (ε := String)
        (probeStage "stage" (fun _ _ (m : Nat) => (some "E", m + 10)))
        (some (probeAfter "after" (fun _ _ _ m => (none, m + 100))))).Run () () ⟨[], 0⟩ =
      (none, ⟨["stage", "after"], 110⟩) :=
  (lifecycle_after_decides
    { Before := none
      After := some (probeAfter "after" (fun _ _ _ m => (none, m + 100)))
      Stage := probeStage "stage" (fun _ _ (m : Nat) => (some "E", m + 10)) }
    (probeAfter "after" (fun _ _ _ m => (none, m + 100))) () () ⟨[], 0⟩ ⟨[], 0⟩ rfl
    (Or.inl ⟨rfl, rfl⟩)).1

/-- A stage wrapped with an observed before-hook that returns nil and an
observed after-hook: the before-hook, the stage and the after-hook run in
that order, and the after-hook receives the result of the stage. -/
theorem Run_observed_hooks (stage : Stage X χ ε (World τ σ)) (tB tA : τ)
    (before : Stage X χ ε (World τ σ) → χ → σ → Option ε × σ)
    (after : Stage X χ ε (World τ σ) → χ → Option ε → σ → Option ε × σ)
    (executor : X) (ctx : χ) (tr : List τ) (m m1 : σ)
    (hok : before stage ctx m = (none, m1)) :
    (CreateStageLifecycle stage (some (probeBefore tB before))
        (some (probeAfter tA after))).Run executor ctx ⟨tr, m⟩ =
      ((after stage ctx (stage.Run executor ctx ⟨tr ++ [tB], m1⟩).1
          (stage.Run executor ctx ⟨tr ++ [tB], m1⟩).2.mem).1,
        ⟨(stage.Run executor ctx ⟨tr ++ [tB], m1⟩).2.trace ++ [tA],
          (after stage ctx (stage.Run executor ctx ⟨tr ++ [tB], m1⟩).1
            (stage.Run executor ctx ⟨tr ++ [tB], m1⟩).2.mem).2⟩) := by
  simp [CreateStageLifecycle, lifecycleStage.Run, probeBefore, probeAfter, World.call, hok]

/-- C7. Stacking order.  A body wrapped with inner hooks and wrapped again
with outer hooks, all observed and all returning nil when they run one
after another: the calls recorded are outer-before, inner-before, body,
inner-after, outer-after, each once and in that order, and `Run` returns
nil. -/
theorem lifecycle_stacking_order (tOB tIB tS tIA tOA : τ)
    (outerBefore innerBefore : Stage X χ ε (World τ σ) → χ → σ → Option ε × σ)
    (body : X → χ → σ → Option ε × σ)
    (innerAfter outerAfter : Stage X χ ε (World τ σ) → χ → Option ε → σ → Option ε × σ)
    (executor : X) (ctx : χ) (tr : List τ) (m0 m1 m2 m3 m4 m5 : σ)
    (h1 : outerBefore (CreateStageLifecycle (probeStage tS body)
      (some (probeBefore tIB innerBefore)) (some (probeAfter tIA innerAfter))) ctx m0 = (none, m1))
    (h2 : innerBefore (probeStage tS body) ctx m1 = (none, m2))
    (h3 : body executor ctx m2 = (none, m3))
    (h4 : innerAfter (probeStage tS body) ctx none m3 = (none, m4))
    (h5 : outerAfter (CreateStageLifecycle (probeStage tS body)
      (some (probeBefore tIB innerBefore)) (some (probeAfter tIA innerAfter))) ctx none m4 =
        (none, m5)) :
    (CreateStageLifecycle
        (CreateStageLifecycle (probeStage tS body)
          (some (probeBefore tIB innerBefore)) (some (probeAfter tIA innerAfter)))
        (some (probeBefore tOB outerBefore)) (some (probeAfter tOA outerAfter))).Run
        executor ctx ⟨tr, m0⟩ =
      (none, ⟨tr ++ [tOB, tIB, tS, tIA, tOA], m5⟩) := by
  have hinner := Run_observed_hooks (probeStage tS body) tIB tIA innerBefore innerAfter
    executor ctx (tr ++ [tOB]) m1 m2 h2
  have hbody : (probeStage tS body).Run executor ctx ⟨tr ++ [tOB] ++ [tIB], m2⟩ =
      (none, ⟨tr ++ [tOB] ++ [tIB] ++ [tS], m3⟩) := by
    simp [probeStage, World.call, h3]
  rw [hbody] at hinner
  simp only [h4] at hinner
  have houter := Run_observed_hooks
    (CreateStageLifecycle (probeStage tS body)
      (some (probeBefore tIB innerBefore)) (some (probeAfter tIA innerAfter)))
    tOB tOA outerBefore outerAfter executor ctx tr m0 m1 h1
  rw [hinner] at houter
  simp only [h5] at houter
  rw [houter]
  simp

theorem lifecycle_stacking_order_witness :
    (CreateStageLifecycle (X := Unit) (χ := Unit) (ε := String)
        (CreateStageLifecycle (probeStage "body" (fun _ _ (m : Nat) => (none, 10 * m + 3)))
          (some (probeBefore "inner-before" (fun _ _ m => (none, 10 * m + 2))))
          (some (probeAfter "inner-after" (fun _ _ _ m => (none, 10 * m + 4)))))
        (some (probeBefore "outer-before" (fun _ _ m => (none, 10 * m + 1))))
        (some (probeAfter "outer-after" (fun _ _ _ m => (none, 10 * m + 5))))).Run
        () () ⟨[], 0⟩ =
      (none, ⟨["outer-before", "inner-before", "body", "inner-after", "outer-after"], 12345⟩) :=
  lifecycle_stacking_order "outer-before" "inner-before" "body" "inner-after" "outer-after"
    (fun _ _ m => (none, 10 * m + 1)) (fun _ _ m => (none, 10 * m + 2))
    (fun _ _ (m : Nat) => (none, 10 * m + 3))
    (fun _ _ _ m => (none, 10 * m + 4)) (fun _ _ _ m => (none, 10 * m + 5))
    () () [] 0 1 12 123 1234 12345 rfl rfl rfl rfl rfl

/-- C10. Without an after-hook the result is the wrapped stage's.  When the
after-hook is nil and the before-hook is nil, or set and returns nil
leaving the world `w1` (`w1 = w` when it is nil), `Run` returns exactly
what the wrapped stage's `Run` returned, nil or an error, and leaves the
world the wrapped stage left. -/
theorem lifecycle_no_after_transparent (l : lifecycleStage X χ ε W)
    (executor : X) (ctx : χ) (w w1 : W)
    (hafter : l.After = none)
    (hbefore : (l.Before = none ∧ w1 = w) ∨
      ∃ before, l.Before = some before ∧ before l.Stage ctx w = (none, w1)) :
    l.Run executor ctx w = l.Stage.Run executor ctx w1 := by
  rcases hbefore with ⟨hnone, rfl⟩ | ⟨before, hsome, hok⟩
  · simp [lifecycleStage.Run, hnone, hafter]
  · simp [lifecycleStage.Run, hsome, hok, hafter]

theorem lifecycle_no_after_transparent_witness :
    (CreateBeforeStageLifecycle (X := Unit) (χ := Unit) (ε := String)
        (probeStage "stage" (fun _ _ (m : Nat) => (some "E", m + 10)))
        (some (probeBefore "before" (fun _ _ m => (none, m + 1))))).Run () () ⟨[], 0⟩ =
      (probeStage "stage" (fun _ _ (m : Nat) => (some "E", m + 10))).Run () () ⟨["before"], 1⟩ :=
  lifecycle_no_after_transparent
    { Before := some (probeBefore "before" (fun _ _ m => (none, m + 1)))
      After := none
      Stage := probeStage "stage" (fun _ _ (m : Nat) => (some "E", m + 10)) }
    () () ⟨[], 0⟩ ⟨["before"], 1⟩ rfl
    (Or.inr ⟨probeBefore "before" (fun _ _ m => (none, m + 1)), rfl, rfl⟩)

end Lifecycle

/-! ## Theorems: conditional stage -/

namespace Conditional

variable {ε σ W : Type}

/-- C4. A nil statement is a false statement.  For a statement `p` that
always returns false and changes nothing, any two branches (each possibly
nil), any executor and any world: the stage built with a nil statement and
the stage built with `p` have the same outcome, result and world.  That
outcome is the executor's on the false branch, or nil on the unchanged
world when the false branch is nil; the true branch takes no part in it. -/
theorem conditional_nil_statement (p : Statement W) (hp : ∀ v, p v = (false, v))
    (trueStep falseStep : Option (Step ε σ)) (executor : Executor ε σ W) (w : W) :
    (CreateConditionalStage none trueStep falseStep).Run executor w =
        (CreateConditionalStage (some p) trueStep falseStep).Run executor w ∧
      (CreateConditionalStage none trueStep falseStep).Run executor w =
        (match falseStep with
         | some step => executor.Run step w
         | none => (none, w)) := by
  constructor
  · simp [CreateConditionalStage, conditionalStage.Run, hp]
  · cases falseStep <;> simp [CreateConditionalStage, conditionalStage.Run]

theorem conditional_nil_statement_witness :
    (CreateConditionalStage (ε := String) none
        (some ⟨"true-step", fun (m : Nat) => (some "T", m + 1)⟩)
        (some ⟨"false-step", fun m => (some "F", m + 2)⟩)).Run recordingExecutor ⟨[], 0⟩ =
      (some "F", ⟨["false-step"], 2⟩) ∧
    (CreateConditionalStage (ε := String) (some (fun v => (false, v)))
        (some ⟨"true-step", fun (m : Nat) => (some "T", m + 1)⟩)
        (some ⟨"false-step", fun m => (some "F", m + 2)⟩)).Run recordingExecutor ⟨[], 0⟩ =
      (some "F", ⟨["false-step"], 2⟩) :=
  ⟨(conditional_nil_statement (fun v => (false, v)) (fun _ => rfl)
      (some ⟨"true-step", fun (m : Nat) => (some "T", m + 1)⟩)
      (some ⟨"false-step", fun m => (some "F", m + 2)⟩) recordingExecutor ⟨[], 0⟩).2, rfl⟩

/-- C5. Branch selection and error propagation.  For a non-nil statement
`p` that leaves the world `w1`: when `p` returns true and the true branch
is a step, `Run` is exactly the executor's run of that step from `w1`, with
the executor's result unmodified; when `p` returns false and the false
branch is a step, `Run` is exactly the executor's run of that step. -/
theorem conditional_branch_selection (c : conditionalStage ε σ W) (p : Statement W)
    (executor : Executor ε σ W) (w w1 : W) (hp : c.Statement = some p) :
    (∀ step, p w = (true, w1) → c.True = some step →
        c.Run executor w = executor.Run step w1) ∧
      (∀ step, p w = (false, w1) → c.False = some step →
        c.Run executor w = executor.Run step w1) := by
  constructor
  · intro step hw hstep
    simp [conditionalStage.Run, hp, hw, hstep]
  · intro step hw hstep
    simp [conditionalStage.Run, hp, hw, hstep]

theorem conditional_branch_selection_witness :
    (CreateConditionalStage (ε := String) (some (fun v => (true, v)))
        (some ⟨"true-step", fun (m : Nat) => (some "T", m + 1)⟩)
        (some ⟨"false-step", fun m => (some "F", m + 2)⟩)).Run recordingExecutor ⟨[], 0⟩ =
      (some "T", ⟨["true-step"], 1⟩) :=
  (conditional_branch_selection
    { Statement := some (fun v => (true, v))
      True := some ⟨"true-step", fun (m : Nat) => (some "T", m + 1)⟩
      False := some ⟨"false-step", fun m => (some "F", m + 2)⟩ }
    (fun v => (true, v)) recordingExecutor ⟨[], 0⟩ ⟨[], 0⟩ rfl).1
    ⟨"true-step", fun (m : Nat) => (some "T", m + 1)⟩ rfl rfl

/-- C8, as stated, fails.  The statement holds true, the true branch is
nil and the false branch is a step: `Run` returns nil and the observing
executor recorded no call, so no branch was run, not exactly one. -/
theorem conditional_exactly_one_branch_fails :
    (CreateConditionalStage (ε := String) (some (fun v => (true, v))) none
        (some ⟨"false-step", fun (m : Nat) => (none, m + 2)⟩)).Run recordingExecutor ⟨[], 0⟩ =
      (none, ⟨[], 0⟩) ∧
    ¬ ((CreateConditionalStage (ε := String) (some (fun v => (true, v))) none
        (some ⟨"false-step", fun (m : Nat) => (none, m + 2)⟩)).Run recordingExecutor
          ⟨[], 0⟩).2.trace.length = 1 := by
  constructor
  · rfl
  · decide

/-- C8, amended.  On every `Run` of a conditional stage with the observing
executor, where the condition `c.Statement != nil && c.Statement()`
evaluates to `b` and leaves the world `w1`: the calls recorded after `w1`
are the branch selected by `b` alone when that branch is a step, and none
when it is nil.  At most one branch runs and the other branch never runs. -/
theorem conditional_at_most_one_branch (c : conditionalStage ε σ (World String σ))
    (w w1 : World String σ) (b : Bool)
    (hcond : (c.Statement = none ∧ b = false ∧ w1 = w) ∨
      ∃ p, c.Statement = some p ∧ p w = (b, w1)) :
    (c.Run recordingExecutor w).2.trace =
      w1.trace ++ (match (if b then c.True else c.False) with
                   | some step => [step.Name]
                   | none => []) := by
  rcases hcond with ⟨hnone, rfl, rfl⟩ | ⟨p, hsome, hw⟩
  · cases hF : c.False <;>
      simp [conditionalStage.Run, hnone, hF, recordingExecutor, World.call]
  · cases b
    · cases hF : c.False <;>
        simp [conditionalStage.Run, hsome, hw, hF, recordingExecutor, World.call]
    · cases hT : c.True <;>
        simp [conditionalStage.Run, hsome, hw, hT, recordingExecutor, World.call]

theorem conditional_at_most_one_branch_witness :
    ((CreateConditionalStage (ε := String) (some (fun v => (false, v)))
        (some ⟨"true-step", fun (m : Nat) => (some "T", m + 1)⟩)
        (some ⟨"false-step", fun m => (some "F", m + 2)⟩)).Run recordingExecutor
          ⟨[], 0⟩).2.trace = ["false-step"] :=
  conditional_at_most_one_branch
    { Statement := some (fun v => (false, v))
      True := some ⟨"true-step", fun (m : Nat) => (some "T", m + 1)⟩
      False := some ⟨"false-step", fun m => (some "F", m + 2)⟩ }
    ⟨[], 0⟩ ⟨[], 0⟩ false (Or.inr ⟨fun v => (false, v), rfl, rfl⟩)

/-- C9. A nil branch is a no-op success.  Whatever the statement is (nil,
returning true, returning false), when the branch it selects is nil, `Run`
returns nil and leaves the world as the evaluation of the statement left
it (unchanged for a nil statement): the executor was not invoked, whatever
the other branch is. -/
theorem conditional_nil_branch_noop (c : conditionalStage ε σ W) (executor : Executor ε σ W)
    (w : W) :
    (c.Statement = none → c.False = none → c.Run executor w = (none, w)) ∧
      (∀ p w1, c.Statement = some p → p w = (true, w1) → c.True = none →
        c.Run executor w = (none, w1)) ∧
      (∀ p w1, c.Statement = some p → p w = (false, w1) → c.False = none →
        c.Run executor w = (none, w1)) := by
  refine ⟨fun hs hF => ?_, fun p w1 hs hw hT => ?_, fun p w1 hs hw hF => ?_⟩
  · simp [conditionalStage.Run, hs, hF]
  · simp [conditionalStage.Run, hs, hw, hT]
  · simp [conditionalStage.Run, hs, hw, hF]

theorem conditional_nil_branch_noop_witness :
    (CreateConditionalStage (ε := String) (some (fun v => (true, v))) none
        (some ⟨"false-step", fun (m : Nat) => (some "F", m + 2)⟩)).Run recordingExecutor
          ⟨[], 0⟩ = (none, ⟨[], 0⟩) :=
  (conditional_nil_branch_noop
    { Statement := some (fun v => (true, v))
      True := none
      False := some ⟨"false-step", fun (m : Nat) => (some "F", m + 2)⟩ }
    recordingExecutor ⟨[], 0⟩).2.1 (fun v => (true, v)) ⟨[], 0⟩ rfl rfl rfl

end Conditional

/-! ## Theorems: empty group, flattening, constructors, statement evaluation -/

namespace Sequential

variable {X ε W : Type}

/-- A group runs the children of a first list, then, unless one of them
failed, the children of a second list from the world the first list left. -/
theorem Run_append (xs ys : List (Stage X ε W)) (executor : X) (w : W) :
    sequentialGroup.Run (xs ++ ys) executor w =
      match sequentialGroup.Run xs executor w with
      | (some err, w1) => (some err, w1)
      | (none, w1) => sequentialGroup.Run ys executor w1 := by
  induction xs generalizing w with
  | nil => simp [Run_nil]
  | cons a rest ih =>
    simp only [List.cons_append, Run_cons]
    cases h : a.Run executor w with
    | mk err w1 =>
      cases err with
      | none => simp [ih]
      | some e => simp

/-- C11. Empty group.  A group created with no stages returns nil and
leaves the world exactly as it was, for every executor and every world:
nothing was invoked. -/
theorem sequential_empty_group (executor : X) (w : W) :
    (CreateSequentialGroup ([] : List (Stage X ε W))).Run executor w = (none, w) :=
  Run_nil executor w

/-- C17. Groups flatten.  For all lists of stages `xs` and `ys`, every
executor and every world, the group whose first child is the group of `xs`
and whose other children are `ys` has the same outcome as the group of
`xs ++ ys`: the same result, error included, and the same world, so the
same children ran in the same order and the same children were skipped. -/
theorem sequential_groups_flatten (xs ys : List (Stage X ε W)) (executor : X) (w : W) :
    (CreateSequentialGroup (CreateSequentialGroup xs :: ys)).Run executor w =
      (CreateSequentialGroup (xs ++ ys)).Run executor w := by
  show sequentialGroup.Run (CreateSequentialGroup xs :: ys) executor w =
    sequentialGroup.Run (xs ++ ys) executor w
  rw [Run_cons, Run_append]
  rfl

end Sequential

namespace Lifecycle

variable {X χ ε W : Type}

/-- C16. The convenience constructors agree with the full constructor.  For
every stage, hook (set or nil), executor, context and world,
`CreateBeforeStageLifecycle stage before` runs as
`CreateStageLifecycle stage before nil` and `CreateAfterStageLifecycle
stage after` runs as `CreateStageLifecycle stage nil after`: same result
and same world after the run. -/
theorem lifecycle_convenience_constructors (stage : Stage X χ ε W)
    (before : Option (BeforeStage X χ ε W)) (after : Option (AfterStage X χ ε W))
    (executor : X) (ctx : χ) (w : W) :
    (CreateBeforeStageLifecycle stage before).Run executor ctx w =
        (CreateStageLifecycle stage before none).Run executor ctx w ∧
      (CreateAfterStageLifecycle stage after).Run executor ctx w =
        (CreateStageLifecycle stage none after).Run executor ctx w :=
  ⟨rfl, rfl⟩

end Lifecycle

namespace Conditional

variable {ε σ : Type}

/-- C18. The statement is evaluated once.  With an observed statement that
may change the memory, `Run` records the statement exactly once, before the
call of the executor, if any; the branch is chosen by the value of that one
evaluation, and the nil check is made on that branch; the step runs on the
memory that one evaluation left.  With a nil statement nothing but the
false branch is recorded. -/
theorem conditional_statement_once (c : conditionalStage ε σ (World String σ))
    (tr : List String) (m : σ) :
    (∀ t p, c.Statement = some (probeStatement t p) →
        c.Run recordingExecutor ⟨tr, m⟩ =
          match (if (p m).1 then c.True else c.False) with
          | some step =>
            ((step.Run (p m).2).1, ⟨tr ++ [t, step.Name], (step.Run (p m).2).2⟩)
          | none => (none, ⟨tr ++ [t], (p m).2⟩)) ∧
      (c.Statement = none →
        c.Run recordingExecutor ⟨tr, m⟩ =
          match c.False with
          | some step => ((step.Run m).1, ⟨tr ++ [step.Name], (step.Run m).2⟩)
          | none => (none, ⟨tr, m⟩)) := by
  constructor
  · intro t p hs
    cases hb : (p m).1
    · cases hF : c.False <;>
        simp [conditionalStage.Run, hs, probeStatement, hb, hF, recordingExecutor, World.call]
    · cases hT : c.True <;>
        simp [conditionalStage.Run, hs, probeStatement, hb, hT, recordingExecutor, World.call]
  · intro hs
    cases hF : c.False <;>
      simp [conditionalStage.Run, hs, hF, recordingExecutor, World.call]

theorem conditional_statement_once_witness :
    (CreateConditionalStage (ε := String)
        (some (probeStatement "statement" (fun (m : Nat) => (m % 2 == 0, m + 1))))
        (some ⟨"true-step", fun m => (none, 10 * m)⟩)
        (some ⟨"false-step", fun m => (some "F", 100 * m)⟩)).Run recordingExecutor ⟨[], 0⟩ =
      (none, ⟨["statement", "true-step"], 10⟩) :=
  (conditional_statement_once
    { Statement := some (probeStatement "statement" (fun (m : Nat) => (m % 2 == 0, m + 1)))
      True := some ⟨"true-step", fun m => (none, 10 * m)⟩
      False := some ⟨"false-step", fun m => (some "F", 100 * m)⟩ } [] 0).1
    "statement" (fun (m : Nat) => (m % 2 == 0, m + 1)) rfl

end Conditional

/-! ## Theorems: arguments handed to hooks and children -/

namespace Lifecycle

variable {X χ ε ι σ : Type}

/-- C12. Argument passing.  A lifecycle stage with observed hooks (each set
or nil) around an observed stage, run with executor `x` and context `c`.
When the before-hook is set it is called on the wrapped stage and `c`; when
it fails, nothing else is called.  When it is nil or returns nil, the
wrapped stage runs once with `x` and `c`, and the after-hook, when set, is
then called once on the wrapped stage, `c` and exactly the result of the
wrapped stage; the result of `Run` is the after-hook's, or the wrapped
stage's when the after-hook is nil. -/
theorem lifecycle_argument_passing
    (watch : Stage X χ ε (World (Call ι X χ ε) σ) → ι)
    (before : Option (Stage X χ ε (World (Call ι X χ ε) σ) → χ → σ → Option ε × σ))
    (after : Option (Stage X χ ε (World (Call ι X χ ε) σ) → χ → Option ε → σ → Option ε × σ))
    (body : X → χ → σ → Option ε × σ) (x : X) (c : χ) (tr : List (Call ι X χ ε)) (m : σ) :
    (∀ b e, before = some b → (b (argStage body) c m).1 = some e →
        (CreateStageLifecycle (argStage body) (before.map (argBefore watch))
            (after.map (argAfter watch))).Run x c ⟨tr, m⟩ =
          (some e, ⟨tr ++ [Call.before (watch (argStage body)) c],
            (b (argStage body) c m).2⟩)) ∧
      (∀ m1, ((before = none ∧ m1 = m) ∨
          ∃ b, before = some b ∧ b (argStage body) c m = (none, m1)) →
        (CreateStageLifecycle (argStage body) (before.map (argBefore watch))
            (after.map (argAfter watch))).Run x c ⟨tr, m⟩ =
          match after with
          | some a =>
            ((a (argStage body) c (body x c m1).1 (body x c m1).2).1,
              ⟨tr ++ (match before with
                      | some _ => [Call.before (watch (argStage body)) c]
                      | none => []) ++
                  [Call.run x c, Call.after (watch (argStage body)) c (body x c m1).1],
                (a (argStage body) c (body x c m1).1 (body x c m1).2).2⟩)
          | none =>
            ((body x c m1).1,
              ⟨tr ++ (match before with
                      | some _ => [Call.before (watch (argStage body)) c]
                      | none => []) ++ [Call.run x c],
                (body x c m1).2⟩)) := by
  have hrun : ∀ w : World (Call ι X χ ε) σ, (argStage body).Run x c w =
      ((body x c w.mem).1, ⟨w.trace ++ [Call.run x c], (body x c w.mem).2⟩) := fun _ => rfl
  constructor
  · intro b e hb he
    subst hb
    simp [CreateStageLifecycle, lifecycleStage.Run, argBefore, World.call, he]
  · intro m1 h
    rcases h with ⟨hnone, rfl⟩ | ⟨b, hb, hok⟩
    · subst hnone
      cases after <;>
        simp [CreateStageLifecycle, lifecycleStage.Run, argAfter, World.call, hrun]
    · subst hb
      cases after <;>
        simp [CreateStageLifecycle, lifecycleStage.Run, argBefore, argAfter,
          World.call, hok, hrun]

theorem lifecycle_argument_passing_witness :
    (CreateStageLifecycle (X := String) (χ := Nat) (ε := String)
        (argStage (fun _ c (m : Nat) => (some "stage failed", m + c)))
        (some (argBefore (fun stage => (stage.Run "probe" 1 ⟨[], 0⟩).1)
          (fun _ c m => (none, m + c))))
        (some (argAfter (fun stage => (stage.Run "probe" 1 ⟨[], 0⟩).1)
          (fun _ _ err m => (err, 10 * m))))).Run "executor" 7 ⟨[], 0⟩ =
      (some "stage failed",
        ⟨[Call.before (some "stage failed") 7, Call.run "executor" 7,
          Call.after (some "stage failed") 7 (some "stage failed")], 140⟩) :=
  (lifecycle_argument_passing (fun stage => (stage.Run "probe" 1 ⟨[], 0⟩).1)
    (some (fun _ c m => (none, m + c))) (some (fun _ _ err m => (err, 10 * m)))
    (fun _ c (m : Nat) => (some "stage failed", m + c)) "executor" 7 [] 0).2 7
    (Or.inr ⟨fun _ c m => (none, m + c), rfl, rfl⟩)

end Lifecycle

namespace Sequential

variable {X ε τ σ : Type}

/-- Observed children that all succeed are each given the executor the
group was given, once and in order; the group then goes on with the
children that follow them. -/
theorem Run_argStages_append (executor : X) (children : List (τ × (X → σ → Option ε × σ)))
    (rest : List (Stage X ε (World (τ × X) σ))) (tr : List (τ × X)) (m : σ)
    (h : allSucceed executor children m) :
    sequentialGroup.Run (children.map argStage ++ rest) executor ⟨tr, m⟩ =
      sequentialGroup.Run rest executor
        ⟨tr ++ children.map (fun child => (child.1, executor)),
          memAfter executor children m⟩ := by
  induction children generalizing tr m with
  | nil => simp [memAfter]
  | cons child more ih =>
    obtain ⟨h1, h2⟩ := h
    simp only [List.map_cons, List.cons_append, Run_cons, argStage, World.call, h1]
    rw [ih _ _ h2]
    simp [memAfter]

end Sequential

/-- C13, as stated, fails.  The claim says that every child run is given
the context the caller handed to the combinator, so that context could be
read off what the child is given.  `Run` of the sequential group and of the
conditional stage has the executor as its only parameter, so whatever
context `c` the caller holds, the run is `Run(executor)`.  The observed
children record everything their `Run` is given, and the observing executor
records the step it is handed: no reading `ctxOf` of what was recorded
returns the caller's context for every `c`. -/
theorem context_propagation_fails :
    (¬ ∃ ctxOf : String × String → Nat, ∀ c : Nat,
        ∀ given ∈ ((Sequential.CreateSequentialGroup (X := String) (ε := String)
            [Sequential.argStage ("S1", fun _ (m : Nat) => (none, m + 1)),
             Sequential.argStage ("S2", fun _ m => (none, m + 2))]).Run "executor"
              ⟨[], 0⟩).2.trace,
          ctxOf given = c) ∧
    (¬ ∃ ctxOf : String → Nat, ∀ c : Nat,
        ∀ given ∈ ((Conditional.CreateConditionalStage (ε := String) none none
            (some ⟨"false-step", fun (m : Nat) => (none, m + 2)⟩)).Run
              Conditional.recordingExecutor ⟨[], 0⟩).2.trace,
          ctxOf given = c) := by
  constructor
  · rintro ⟨ctxOf, h⟩
    have hmem : ("S1", "executor") ∈
        ((Sequential.CreateSequentialGroup (X := String) (ε := String)
          [Sequential.argStage ("S1", fun _ (m : Nat) => (none, m + 1)),
           Sequential.argStage ("S2", fun _ m => (none, m + 2))]).Run "executor"
            ⟨[], 0⟩).2.trace := by
      show ("S1", "executor") ∈ [("S1", "executor"), ("S2", "executor")]
      simp
    have h0 := h 0 _ hmem
    have h1 := h 1 _ hmem
    omega
  · rintro ⟨ctxOf, h⟩
    have hmem : "false-step" ∈
        ((Conditional.CreateConditionalStage (ε := String) none none
          (some ⟨"false-step", fun (m : Nat) => (none, m + 2)⟩)).Run
            Conditional.recordingExecutor ⟨[], 0⟩).2.trace := by
      show "false-step" ∈ ["false-step"]
      simp
    have h0 := h 0 _ hmem
    have h1 := h 1 _ hmem
    omega

/-- C13, amended.  The sequential group and the conditional stage implement
`Run(Executor)`.  The group gives the executor it received, unchanged, to
every child it runs: to all its children, once each and in order, when they
all succeed, and to the children up to the first failing one otherwise,
whatever the later children are.  The conditional stage, whose condition
`c.Statement != nil && c.Statement()` evaluates to `b` and leaves the world
`w1`, hands the branch selected by `b`, when it is a step, to the executor
it received, from `w1`, and its outcome is that executor's; it hands
nothing to the executor when the selected branch is nil. -/
theorem executor_propagation {X ε τ σ W : Type} :
    (∀ (children : List (τ × (X → σ → Option ε × σ))) (x : X) (tr : List (τ × X)) (m : σ),
        Sequential.allSucceed x children m →
        (Sequential.CreateSequentialGroup (children.map Sequential.argStage)).Run x ⟨tr, m⟩ =
          (none, ⟨tr ++ children.map (fun child => (child.1, x)),
            Sequential.memAfter x children m⟩)) ∧
      (∀ (before : List (τ × (X → σ → Option ε × σ))) (failing : τ × (X → σ → Option ε × σ))
          (later : List (Sequential.Stage X ε (World (τ × X) σ))) (x : X)
          (tr : List (τ × X)) (m : σ) (e : ε),
        Sequential.allSucceed x before m →
        (failing.2 x (Sequential.memAfter x before m)).1 = some e →
        (Sequential.CreateSequentialGroup
            (before.map Sequential.argStage ++ Sequential.argStage failing :: later)).Run x
              ⟨tr, m⟩ =
          (some e, ⟨tr ++ before.map (fun child => (child.1, x)) ++ [(failing.1, x)],
            (failing.2 x (Sequential.memAfter x before m)).2⟩)) ∧
      (∀ (c : Conditional.conditionalStage ε σ W) (executor : Conditional.Executor ε σ W)
          (w w1 : W) (b : Bool),
        ((c.Statement = none ∧ b = false ∧ w1 = w) ∨
          ∃ p, c.Statement = some p ∧ p w = (b, w1)) →
        c.Run executor w =
          match (if b then c.True else c.False) with
          | some step => executor.Run step w1
          | none => (none, w1)) := by
  refine ⟨?_, ?_, ?_⟩
  · intro children x tr m h
    show Sequential.sequentialGroup.Run _ x _ = _
    have h2 := Sequential.Run_argStages_append x children [] tr m h
    rw [List.append_nil] at h2
    rw [h2, Sequential.Run_nil]
  · intro before failing later x tr m e hbefore hfail
    show Sequential.sequentialGroup.Run _ x _ = _
    rw [Sequential.Run_argStages_append x before _ tr m hbefore, Sequential.Run_cons]
    simp [Sequential.argStage, World.call, hfail]
  · intro c executor w w1 b hcond
    rcases hcond with ⟨hnone, rfl, rfl⟩ | ⟨p, hsome, hw⟩
    · cases hF : c.False <;> simp [Conditional.conditionalStage.Run, hnone, hF]
    · cases b
      · cases hF : c.False <;> simp [Conditional.conditionalStage.Run, hsome, hw, hF]
      · cases hT : c.True <;> simp [Conditional.conditionalStage.Run, hsome, hw, hT]

theorem executor_propagation_witness :
    (Sequential.CreateSequentialGroup (X := String) (ε := String)
        [Sequential.argStage ("S1", fun _ (m : Nat) => (none, m + 1)),
         Sequential.argStage ("S2", fun _ m => (some "boom", m + 10)),
         Sequential.argStage ("S3", fun _ m => (none, m + 100))]).Run "executor" ⟨[], 0⟩ =
      (some "boom", ⟨[("S1", "executor"), ("S2", "executor")], 11⟩) ∧
    (Conditional.CreateConditionalStage (ε := String)
        (some (Conditional.probeStatement "statement" (fun (m : Nat) => (true, m + 1))))
        (some ⟨"true-step", fun m => (some "T", 10 * m)⟩)
        (some ⟨"false-step", fun m => (some "F", 100 * m)⟩)).Run
          Conditional.recordingExecutor ⟨[], 0⟩ =
      (some "T", ⟨["statement", "true-step"], 10⟩) :=
  ⟨(executor_propagation (X := String) (ε := String) (τ := String) (σ := Nat)
      (W := Unit)).2.1
      [("S1", fun _ (m : Nat) => (none, m + 1))] ("S2", fun _ m => (some "boom", m + 10))
      [Sequential.argStage ("S3", fun _ m => (none, m + 100))] "executor" [] 0 "boom"
      (by simp [Sequential.allSucceed]) (by simp [Sequential.memAfter]),
    (executor_propagation (X := Unit) (ε := String) (τ := Unit) (σ := Nat)
      (W := World String Nat)).2.2
      { Statement := some (Conditional.probeStatement "statement"
          (fun (m : Nat) => (true, m + 1)))
        True := some ⟨"true-step", fun m => (some "T", 10 * m)⟩
        False := some ⟨"false-step", fun m => (some "F", 100 * m)⟩ }
      Conditional.recordingExecutor ⟨[], 0⟩ ⟨["statement"], 1⟩ true
      (Or.inr ⟨Conditional.probeStatement "statement" (fun (m : Nat) => (true, m + 1)),
        rfl, rfl⟩)⟩

/-! ## Theorems: termination on stage trees -/

namespace Tree

variable {χ ε σ W : Type}

theorem runSyncLoopFuel_map {ι κ : Type} (g : ι → κ) (run : κ → W → Option (Option ε × W))
    (indices : List ι) (w : W) :
    runSyncLoopFuel run (indices.map g) w =
      runSyncLoopFuel (fun index => run (g index)) indices w := by
  induction indices generalizing w with
  | nil => rfl
  | cons index rest ih =>
    simp only [List.map_cons, runSyncLoopFuel]
    cases h : run (g index) w with
    | none => rfl
    | some r =>
      obtain ⟨err, w1⟩ := r
      cases err <;> simp [ih]

/-- The bounded loop over a group with a first child. -/
theorem runSyncFuel_cons {α : Type} (f : α → W → Option (Option ε × W)) (a : α) (s : List α)
    (w : W) :
    runSyncFuel (a :: s).length (fun index => f ((a :: s).get index)) w =
      match f a w with
      | none => none
      | some (some err, w1) => some (some err, w1)
      | some (none, w1) => runSyncFuel s.length (fun index => f (s.get index)) w1 := by
  simp only [runSyncFuel, List.length_cons, List.finRange_succ, runSyncLoopFuel,
    runSyncLoopFuel_map]
  rfl

mutual
/-- With fuel at least the depth of the tree, the bounded run returns, and
returns the outcome of the stage the tree stands for. -/
theorem runFuel_of_depth_le : ∀ (t : StageTree χ ε σ W) (fuel : Nat), t.depth ≤ fuel →
    ∀ (executor : Conditional.Executor ε σ W) (ctx : χ) (w : W),
      t.runFuel fuel executor ctx w = some (t.build.Run executor ctx w)
  | .leaf stage, fuel, h, executor, ctx, w => by
    cases fuel with
    | zero => simp [StageTree.depth] at h
    | succ n => simp [StageTree.runFuel, StageTree.build]
  | .sequential children, fuel, h, executor, ctx, w => by
    cases fuel with
    | zero => simp [StageTree.depth] at h
    | succ n =>
      have hall : StageTree.depthAll children ≤ n := by
        simp only [StageTree.depth] at h
        omega
      simp only [StageTree.runFuel, StageTree.build]
      exact runFuel_children children n hall executor ctx w
  | .conditional statement trueStep falseStep, fuel, h, executor, ctx, w => by
    cases fuel with
    | zero => simp [StageTree.depth] at h
    | succ n => simp [StageTree.runFuel, StageTree.build, Conditional.CreateConditionalStage]
  | .lifecycle before after stage, fuel, h, executor, ctx, w => by
    cases fuel with
    | zero => simp [StageTree.depth] at h
    | succ n =>
      have hstage : stage.depth ≤ n := by
        simp only [StageTree.depth] at h
        omega
      simp only [StageTree.runFuel, StageTree.build, Lifecycle.CreateStageLifecycle,
        Lifecycle.lifecycleStage.Run]
      have hrec := fun w1 => runFuel_of_depth_le stage n hstage executor ctx w1
      cases before with
      | none =>
        simp only [hrec]
        cases after <;> rfl
      | some hook =>
        cases hb : hook stage.build ctx w with
        | mk err w1 =>
          cases err with
          | some e => simp only [hb]
          | none =>
            simp only [hb, hrec]
            cases after <;> rfl
/-- With fuel at least the depth of every child, the bounded loop of a
group returns, and returns the outcome of the group of the children. -/
theorem runFuel_children : ∀ (children : List (StageTree χ ε σ W)) (fuel : Nat),
    StageTree.depthAll children ≤ fuel →
    ∀ (executor : Conditional.Executor ε σ W) (ctx : χ) (w : W),
      runSyncFuel children.length
          (fun index => StageTree.runFuel fuel (children.get index) executor ctx) w =
        some (Sequential.sequentialGroup.Run (StageTree.buildAll children) (executor, ctx) w)
  | [], fuel, _, executor, ctx, w => by
    simp [runSyncFuel, runSyncLoopFuel, StageTree.buildAll, Sequential.Run_nil]
  | t :: rest, fuel, h, executor, ctx, w => by
    have h1 : t.depth ≤ fuel := by
      simp only [StageTree.depthAll] at h
      omega
    have h2 : StageTree.depthAll rest ≤ fuel := by
      simp only [StageTree.depthAll] at h
      omega
    rw [runSyncFuel_cons (fun child => StageTree.runFuel fuel child executor ctx) t rest w,
      runFuel_of_depth_le t fuel h1 executor ctx w]
    simp only [StageTree.buildAll, Sequential.Run_cons, bundle]
    cases ht : t.build.Run executor ctx w with
    | mk err w1 =>
      cases err with
      | some e => rfl
      | none => exact runFuel_children rest fuel h2 executor ctx w1
end

/-- The bound of `runFuel` is a real one: a lifecycle stage around a leaf
needs two nested calls and does not return with fuel for one. -/
theorem runFuel_short_of_fuel :
    (StageTree.lifecycle (χ := Unit) (ε := String) (σ := Nat) (W := World String Nat)
        none none (StageTree.leaf ⟨fun _ _ w => (none, w)⟩)).runFuel 1
      Conditional.recordingExecutor () ⟨[], 0⟩ = none :=
  rfl

/-- C14. Termination.  For every finite stage tree built from sequential
groups, conditional stages and lifecycle stages over leaves, statements and
hooks that terminate, every executor, context and world: `Run` returns.
Run with a bound on nested `Run` calls equal to the depth of the tree, it
does not reach the bound, and its outcome is the outcome of the stage that
the library's constructors build by recursion on the tree. -/
theorem stage_tree_run_terminates (t : StageTree χ ε σ W)
    (executor : Conditional.Executor ε σ W) (ctx : χ) (w : W) :
    t.runFuel t.depth executor ctx w = some (t.build.Run executor ctx w) :=
  runFuel_of_depth_le t t.depth (le_refl _) executor ctx w

end Tree

/-! ## Theorems: parallel group -/

namespace Parallel

variable {X ε τ σ : Type}

/-- After the children of a schedule ran, the slot of a scheduled child
holds its result, the other slots are unchanged, and each scheduled child
was recorded once, in schedule order. -/
theorem runAll_observed {n : Nat} (run : Fin n → World τ σ → Option ε × World τ σ)
    (tag : Fin n → τ) (result : Fin n → Option ε) (effect : Fin n → σ → σ)
    (hchild : ∀ i w, run i w = (result i, ⟨w.trace ++ [tag i], effect i w.mem⟩))
    (schedule : List (Fin n)) (slots : Fin n → Option ε) (w : World τ σ) :
    (∀ i, (runAll run schedule slots w).1 i = if i ∈ schedule then result i else slots i) ∧
      (runAll run schedule slots w).2.trace = w.trace ++ schedule.map tag := by
  induction schedule generalizing slots w with
  | nil => simp [runAll]
  | cons index rest ih =>
    simp only [runAll, hchild]
    obtain ⟨h1, h2⟩ := ih (Function.update slots index (result index))
      ⟨w.trace ++ [tag index], effect index w.mem⟩
    refine ⟨fun i => ?_, ?_⟩
    · rw [h1 i]
      by_cases hi : i = index
      · subst hi
        simp
      · by_cases hr : i ∈ rest
        · simp [hr]
        · simp [hr, hi, Function.update_noteq hi]
    · rw [h2]
      simp

theorem aggregate_eq_none_iff {n : Nat} (slots : Fin n → Option ε) :
    aggregate slots = none ↔ ∀ i, slots i = none := by
  unfold aggregate
  constructor
  · intro h i
    cases hl : (List.finRange n).filterMap
        (fun index => (slots index).map (fun err => (index.val, err))) with
    | nil =>
      cases hs : slots i with
      | none => rfl
      | some e =>
        have hmem : (i.val, e) ∈ (List.finRange n).filterMap
            (fun index => (slots index).map (fun err => (index.val, err))) :=
          List.mem_filterMap.mpr ⟨i, List.mem_finRange i, by simp [hs]⟩
        rw [hl] at hmem
        simp at hmem
    | cons failure more =>
      rw [hl] at h
      simp at h
  · intro h
    have hl : (List.finRange n).filterMap
        (fun index => (slots index).map (fun err => (index.val, err))) = [] := by
      apply List.eq_nil_iff_forall_not_mem.mpr
      intro a ha
      obtain ⟨i, _, hi⟩ := List.mem_filterMap.mp ha
      simp [h i] at hi
    rw [hl]

theorem mem_of_aggregate {n : Nat} (slots : Fin n → Option ε) (failures : AggregateError ε)
    (h : aggregate slots = some failures) (k : Nat) (e : ε) :
    (k, e) ∈ failures ↔ ∃ i : Fin n, i.val = k ∧ slots i = some e := by
  have hl : failures = (List.finRange n).filterMap
      (fun index => (slots index).map (fun err => (index.val, err))) := by
    unfold aggregate at h
    cases hf : (List.finRange n).filterMap
        (fun index => (slots index).map (fun err => (index.val, err))) with
    | nil => rw [hf] at h; simp at h
    | cons failure more => rw [hf] at h; simpa using h.symm
  rw [hl, List.mem_filterMap]
  constructor
  · rintro ⟨i, _, hi⟩
    cases hs : slots i with
    | none => simp [hs] at hi
    | some e2 =>
      simp only [hs, Option.map_some', Option.some.injEq, Prod.mk.injEq] at hi
      exact ⟨i, hi.1, by rw [hs, hi.2]⟩
  · rintro ⟨i, hk, hs⟩
    exact ⟨i, List.mem_finRange i, by simp [hs, hk]⟩

end Parallel

namespace Parallel

variable {X ε τ σ : Type}

/-- C15. Aggregation of a parallel group.  The children are observed
stages: child `i` records `tag i` and returns `result i`.  For every
schedule that launches every child once, in whatever order: every child was
run, once, before `Run` returned; `Run` returns nil exactly when no child
fails; and an aggregate it returns references child `k` with error `e`
exactly when child `k` failed with `e`, the failing children and no
others. -/
theorem parallel_aggregate (s : List (Sequential.Stage X ε (World τ σ))) (executor : X)
    (tag : Fin s.length → τ) (result : Fin s.length → Option ε)
    (effect : Fin s.length → σ → σ)
    (hchild : ∀ i w, (s.get i).Run executor w =
      (result i, ⟨w.trace ++ [tag i], effect i w.mem⟩))
    (schedule : List (Fin s.length)) (hschedule : schedule.Perm (List.finRange s.length))
    (w : World τ σ) :
    (parallelGroup.Run s schedule executor w).2.trace = w.trace ++ schedule.map tag ∧
      ((parallelGroup.Run s schedule executor w).1 = none ↔ ∀ i, result i = none) ∧
      ∀ failures, (parallelGroup.Run s schedule executor w).1 = some failures →
        ∀ k e, (k, e) ∈ failures ↔ ∃ i : Fin s.length, i.val = k ∧ result i = some e := by
  obtain ⟨hslots, htrace⟩ := runAll_observed (fun index => (s.get index).Run executor)
    tag result effect hchild schedule (fun _ => none) w
  have hall : (runAll (fun index => (s.get index).Run executor) schedule
      (fun _ => none) w).1 = result := by
    funext i
    rw [hslots i, if_pos (hschedule.mem_iff.mpr (List.mem_finRange i))]
  refine ⟨htrace, ?_, ?_⟩
  · simp only [parallelGroup.Run, hall]
    exact aggregate_eq_none_iff result
  · intro failures hf k e
    simp only [parallelGroup.Run, hall] at hf
    exact mem_of_aggregate result failures hf k e

theorem parallel_aggregate_witness :
    (parallelGroup.Run (X := Unit) (ε := String)
        [Sequential.probeStage ("A", fun _ (m : Nat) => (some "e0", m + 1)),
         Sequential.probeStage ("B", fun _ m => (none, m + 10)),
         Sequential.probeStage ("C", fun _ m => (some "e2", m + 100))]
        ([2, 0, 1] : List (Fin 3)) () ⟨[], 0⟩).2.trace = ["C", "A", "B"] ∧
    parallelGroup.Run (X := Unit) (ε := String)
        [Sequential.probeStage ("A", fun _ (m : Nat) => (some "e0", m + 1)),
         Sequential.probeStage ("B", fun _ m => (none, m + 10)),
         Sequential.probeStage ("C", fun _ m => (some "e2", m + 100))]
        ([2, 0, 1] : List (Fin 3)) () ⟨[], 0⟩ = (some [(0, "e0"), (2, "e2")], ⟨["C", "A", "B"], 111⟩) :=
  ⟨(parallel_aggregate
      [Sequential.probeStage ("A", fun _ (m : Nat) => (some "e0", m + 1)),
       Sequential.probeStage ("B", fun _ m => (none, m + 10)),
       Sequential.probeStage ("C", fun _ m => (some "e2", m + 100))] ()
      (fun i => match i with
        | ⟨0, _⟩ => "A"
        | ⟨1, _⟩ => "B"
        | ⟨_ + 2, _⟩ => "C")
      (fun i => match i with
        | ⟨0, _⟩ => some "e0"
        | ⟨1, _⟩ => none
        | ⟨_ + 2, _⟩ => some "e2")
      (fun i m => match i with
        | ⟨0, _⟩ => m + 1
        | ⟨1, _⟩ => m + 10
        | ⟨_ + 2, _⟩ => m + 100)
      (fun i w => match i with
        | ⟨0, _⟩ => rfl
        | ⟨1, _⟩ => rfl
        | ⟨2, _⟩ => rfl)
      ([2, 0, 1] : List (Fin 3)) (by decide) ⟨[], 0⟩).1, rfl⟩

end Parallel
